import Mathlib

/-!
Verification of the Spike editor (src/Spike.c) against its specification.

The C source is shallowly embedded: byte buffers become `List Nat` (one
entry per byte), the global `struct editorConfig E` becomes the
`EditorState` structure, and every editor operation becomes a pure
function from states to states.  C `int` parameters that can be negative
(such as the `at` insertion positions) are embedded as `Int`; state
fields that the editor keeps non-negative are embedded as `Nat`.
-/

namespace Spike

/-- SPIKE_TAB_STOP from Spike.c line 25. -/
def SPIKE_TAB_STOP : Nat := 8

/-- Tail-recursive core of `editorRowCxToRx` (Spike.c lines 281-292):
starting from render column `rx`, advance once per remaining byte, where a
tab byte (9) first advances `rx` by `(SPIKE_TAB_STOP - 1) - rx % SPIKE_TAB_STOP`
and then by one more, exactly as the C loop body does. -/
def cxToRxAux : List Nat → Nat → Nat
  | [], rx => rx
  | c :: l, rx =>
      cxToRxAux l
        (if c = 9 then (rx + ((SPIKE_TAB_STOP - 1) - rx % SPIKE_TAB_STOP)) + 1
         else rx + 1)

/-- editorRowCxToRx (Spike.c lines 281-292): converts a chars index `cx`
into a render index by walking the first `cx` bytes of `chars`. -/
def editorRowCxToRx (chars : List Nat) (cx : Nat) : Nat :=
  cxToRxAux (chars.take cx) 0

/-- Core loop of `editorRowRxToCx` (Spike.c lines 295-311): walk `cx`
through the row accumulating the same tab-aware advance into `cur_rx`;
return the current index as soon as `cur_rx > rx`; if the loop finishes,
return the number of bytes walked (the row size). -/
def rxToCxAux : List Nat → Nat → Nat → Nat → Nat
  | [], _, _, cx => cx
  | c :: l, cur_rx, rx, cx =>
      let cur' :=
        if c = 9 then (cur_rx + ((SPIKE_TAB_STOP - 1) - cur_rx % SPIKE_TAB_STOP)) + 1
        else cur_rx + 1
      if rx < cur' then cx else rxToCxAux l cur' rx (cx + 1)

/-- editorRowRxToCx (Spike.c lines 295-311). -/
def editorRowRxToCx (chars : List Nat) (rx : Nat) : Nat :=
  rxToCxAux chars 0 rx 0

/-- The render buffer construction loop of `editorUpdateRow` (Spike.c
lines 327-338), parameterized by the current write index: a tab byte
emits one space and then further spaces until the write index is a
multiple of SPIKE_TAB_STOP (together `SPIKE_TAB_STOP - idx % SPIKE_TAB_STOP`
spaces); any other byte is copied unchanged. -/
def renderAux : List Nat → Nat → List Nat
  | [], _ => []
  | c :: l, idx =>
      if c = 9 then
        List.replicate (SPIKE_TAB_STOP - idx % SPIKE_TAB_STOP) 32 ++
          renderAux l (idx + (SPIKE_TAB_STOP - idx % SPIKE_TAB_STOP))
      else
        c :: renderAux l (idx + 1)

/-- The render bytes `editorUpdateRow` derives from a row's chars. -/
def renderChars (chars : List Nat) : List Nat :=
  renderAux chars 0

/-- Highlight tag HL_NORMAL (Spike.c line 48). -/
def HL_NORMAL : Nat := 0

/-- Highlight tag HL_NUMBER (Spike.c line 49). -/
def HL_NUMBER : Nat := 1

/-- Highlight tag HL_MATCH (Spike.c line 50). -/
def HL_MATCH : Nat := 2

/-- ASCII digit test, as `isdigit` classifies the render bytes. -/
def isDigitByte (c : Nat) : Bool :=
  48 ≤ c && c ≤ 57

/-- editorUpdateSyntax (Spike.c lines 245-266): the highlight overlay has
one tag per render byte, HL_NUMBER on ASCII digits and HL_NORMAL
elsewhere. -/
def editorUpdateSyntax (render : List Nat) : List Nat :=
  render.map (fun c => if isDigitByte c then HL_NUMBER else HL_NORMAL)

/-- One editor row (struct erow, Spike.c lines 58-64).  `size` and `rsize`
are embedded as `chars.length` and `render.length`. -/
structure Erow where
  chars : List Nat
  render : List Nat
  hl : List Nat
deriving DecidableEq, Repr

/-- editorUpdateRow (Spike.c lines 313-344): recompute `render` from
`chars` and then the highlight overlay from `render`. -/
def editorUpdateRow (chars : List Nat) : Erow :=
  let r := renderChars chars
  { chars := chars, render := r, hl := editorUpdateSyntax r }

/-! ## Round-trip lemmas for the coordinate maps (claim C1) -/

/-- One advance step of the coordinate maps strictly increases the render
column. -/
lemma cxToRxAux_step_lt (c rx : Nat) :
    rx < (if c = 9 then (rx + ((SPIKE_TAB_STOP - 1) - rx % SPIKE_TAB_STOP)) + 1
          else rx + 1) := by
  split <;> omega

/-- The accumulator of `cxToRxAux` never decreases. -/
lemma le_cxToRxAux (l : List Nat) (rx : Nat) : rx ≤ cxToRxAux l rx := by
  induction l generalizing rx with
  | nil => simp [cxToRxAux]
  | cons c l ih =>
      have h1 := cxToRxAux_step_lt c rx
      have h2 := ih (if c = 9 then (rx + ((SPIKE_TAB_STOP - 1) - rx % SPIKE_TAB_STOP)) + 1
                     else rx + 1)
      simp only [cxToRxAux]
      omega

/-- Generalized round trip: scanning for the render column of the `k`-th
logical column returns exactly `k` more than the starting logical
column. -/
lemma rxToCxAux_cxToRxAux (l : List Nat) (cur cx0 k : Nat) (hk : k ≤ l.length) :
    rxToCxAux l cur (cxToRxAux (l.take k) cur) cx0 = cx0 + k := by
  induction l generalizing cur cx0 k with
  | nil =>
      have : k = 0 := by simpa using hk
      subst this
      simp [rxToCxAux, cxToRxAux]
  | cons c l ih =>
      cases k with
      | zero =>
          have hlt := cxToRxAux_step_lt c cur
          simp only [List.take_zero, cxToRxAux, rxToCxAux]
          rw [if_pos hlt]
          omega
      | succ j =>
          have hj : j ≤ l.length := by simpa using hk
          simp only [List.take_succ_cons, cxToRxAux, rxToCxAux]
          set cur' := (if c = 9 then (cur + ((SPIKE_TAB_STOP - 1) - cur % SPIKE_TAB_STOP)) + 1
                       else cur + 1) with hcur'
          have hmono : cur' ≤ cxToRxAux (l.take j) cur' := le_cxToRxAux _ _
          rw [if_neg (by omega)]
          rw [ih cur' (cx0 + 1) j hj]
          omega

/-- Full round trip: for every `cx ≤ chars.length`,
`editorRowRxToCx` inverts `editorRowCxToRx` exactly (even on rows with
tabs). -/
lemma rxToCx_cxToRx (chars : List Nat) (cx : Nat) (h : cx ≤ chars.length) :
    editorRowRxToCx chars (editorRowCxToRx chars cx) = cx := by
  have := rxToCxAux_cxToRxAux chars 0 0 cx h
  simpa [editorRowRxToCx, editorRowCxToRx] using this

/-- Generalized in-span lemma: any render column at or past the start of
the advance of position `t` but strictly before the advance of position
`t+1` is mapped to logical column `t`. -/
lemma rxToCxAux_in_span (l : List Nat) (cur cx0 t rx : Nat)
    (ht : t < l.length)
    (hlo : cxToRxAux (l.take t) cur ≤ rx)
    (hhi : rx < cxToRxAux (l.take (t + 1)) cur) :
    rxToCxAux l cur rx cx0 = cx0 + t := by
  induction l generalizing cur cx0 t rx with
  | nil => simp at ht
  | cons c l ih =>
      cases t with
      | zero =>
          simp only [List.take_zero, cxToRxAux] at hlo
          simp only [List.take_succ_cons, List.take_zero, cxToRxAux] at hhi
          simp only [rxToCxAux]
          rw [if_pos (by omega)]
          omega
      | succ j =>
          have hj : j < l.length := by simpa using ht
          simp only [List.take_succ_cons, cxToRxAux] at hlo hhi
          have hmono := le_cxToRxAux (l.take j)
            (if c = 9 then (cur + ((SPIKE_TAB_STOP - 1) - cur % SPIKE_TAB_STOP)) + 1
             else cur + 1)
          simp only [rxToCxAux]
          rw [if_neg (by omega)]
          rw [ih _ (cx0 + 1) j rx hj hlo hhi]
          omega

/-- C1 (amended).  For every row and every logical column
`cx ≤ chars.length`, the round trip `rx_to_cx (cx_to_rx cx)` returns a
column `≥ cx`; when the row contains no tab byte the round trip is the
identity; and any render column inside an expanded tab's span (at or past
the tab's first render column, strictly before the following byte's
render column) maps back to the logical column of the tab itself. -/
theorem c1_roundtrip_theorem :
    (∀ (chars : List Nat) (cx : Nat), cx ≤ chars.length →
        cx ≤ editorRowRxToCx chars (editorRowCxToRx chars cx)) ∧
    (∀ (chars : List Nat), (∀ c ∈ chars, c ≠ 9) →
        ∀ cx : Nat, cx ≤ chars.length →
          editorRowRxToCx chars (editorRowCxToRx chars cx) = cx) ∧
    (∀ (chars : List Nat) (t : Nat) (ht : t < chars.length),
        chars.get ⟨t, ht⟩ = 9 →
        ∀ rx : Nat, editorRowCxToRx chars t ≤ rx →
          rx < editorRowCxToRx chars (t + 1) →
          editorRowRxToCx chars rx = t) := by
  refine ⟨?_, ?_, ?_⟩
  · intro chars cx h
    rw [rxToCx_cxToRx chars cx h]
  · intro chars _ cx h
    exact rxToCx_cxToRx chars cx h
  · intro chars t ht _ rx hlo hhi
    have := rxToCxAux_in_span chars 0 0 t rx ht hlo hhi
    simpa [editorRowRxToCx, editorRowCxToRx] using this

/-- Witness for C1: concrete instance of all three conjuncts. -/
theorem c1_roundtrip_witness :
    (1 ≤ editorRowRxToCx [9, 97] (editorRowCxToRx [9, 97] 1)) ∧
    (editorRowRxToCx [97, 98] (editorRowCxToRx [97, 98] 1) = 1) ∧
    (editorRowRxToCx [9] 3 = 0) := by
  refine ⟨?_, ?_, ?_⟩
  · exact c1_roundtrip_theorem.1 [9, 97] 1 (by decide)
  · exact c1_roundtrip_theorem.2.1 [97, 98] (by decide) 1 (by decide)
  · exact c1_roundtrip_theorem.2.2 [9] 0 (by decide) (by decide) 3 (by decide) (by decide)

/-- Counterexample for C1 as stated: in the row consisting of a single
tab, render column 3 lies strictly inside the tab's expanded span
(columns 0 through 7), yet `editorRowRxToCx` maps it to logical column 0
(the tab itself), not to logical column 1 (the column immediately after
the tab) as the claim states. -/
theorem c1_roundtrip_counterexample :
    editorRowCxToRx [9] 0 < 3 ∧ 3 < editorRowCxToRx [9] 1 ∧
      editorRowRxToCx [9] 3 ≠ 1 := by
  decide

/-! ## Tab expansion (claim C2) -/

/-- C2.  `editorUpdateRow`'s render derivation: a tab byte at write index
`idx` expands to `SPIKE_TAB_STOP - idx % SPIKE_TAB_STOP` spaces, a count
that is between 1 and SPIKE_TAB_STOP and lands the next write index on a
multiple of SPIKE_TAB_STOP; every other byte is copied unchanged; and
concretely the row "a\tb" renders as one 'a', seven spaces and one 'b',
with rsize 9. -/
theorem c2_tab_expansion_theorem :
    (∀ (l : List Nat) (idx : Nat),
        renderAux (9 :: l) idx =
          List.replicate (SPIKE_TAB_STOP - idx % SPIKE_TAB_STOP) 32 ++
            renderAux l (idx + (SPIKE_TAB_STOP - idx % SPIKE_TAB_STOP)) ∧
        1 ≤ SPIKE_TAB_STOP - idx % SPIKE_TAB_STOP ∧
        SPIKE_TAB_STOP - idx % SPIKE_TAB_STOP ≤ SPIKE_TAB_STOP ∧
        (idx + (SPIKE_TAB_STOP - idx % SPIKE_TAB_STOP)) % SPIKE_TAB_STOP = 0) ∧
    (∀ (c : Nat) (l : List Nat) (idx : Nat), c ≠ 9 →
        renderAux (c :: l) idx = c :: renderAux l (idx + 1)) ∧
    renderChars [97, 9, 98] = 97 :: (List.replicate 7 32 ++ [98]) ∧
    (renderChars [97, 9, 98]).length = 9 := by
  refine ⟨?_, ?_, by decide, by decide⟩
  · intro l idx
    refine ⟨by simp [renderAux], ?_, ?_, ?_⟩ <;>
      simp only [SPIKE_TAB_STOP] <;> omega
  · intro c l idx hc
    simp [renderAux, hc]

/-- Witness for C2: the non-tab copying conjunct applied at a concrete
byte, together with the concrete "a\tb" expansion. -/
theorem c2_tab_expansion_witness :
    renderAux [98] 5 = 98 :: renderAux [] 6 ∧
      renderChars [97, 9, 98] = 97 :: (List.replicate 7 32 ++ [98]) := by
  exact ⟨c2_tab_expansion_theorem.2.1 98 [] 5 (by decide),
         c2_tab_expansion_theorem.2.2.1⟩

/-! ## Generic list surgery lemmas

Small positional lemmas phrased at the length of an explicit front
segment, used to evaluate the row-array splices of the document
operations. -/

lemma lt_length_of_get?_eq_some {α : Type} (l : List α) (i : Nat) (x : α)
    (h : l[i]? = some x) : i < l.length := by
  induction l generalizing i with
  | nil => simp at h
  | cons a l ih =>
      cases i with
      | zero => simp
      | succ j =>
          simp only [List.getElem?_cons_succ] at h
          have := ih j h
          simpa using Nat.succ_lt_succ this

lemma get?_append_cons {α : Type} (T X : List α) (x : α) :
    (T ++ x :: X)[T.length]? = some x := by
  induction T with
  | nil => simp
  | cons a T ih => simpa using ih

lemma get?_append_cons2 {α : Type} (T X : List α) (x y : α) :
    (T ++ x :: y :: X)[T.length + 1]? = some y := by
  have := get?_append_cons (T ++ [x]) X y
  simpa [List.append_assoc] using this

lemma set_append_cons {α : Type} (T X : List α) (x v : α) :
    (T ++ x :: X).set T.length v = T ++ v :: X := by
  induction T with
  | nil => simp
  | cons a T ih => simpa using ih

lemma eraseIdx_append_cons {α : Type} (T X : List α) (x : α) :
    (T ++ x :: X).eraseIdx T.length = T ++ X := by
  induction T with
  | nil => simp
  | cons a T ih => simpa [List.eraseIdx] using ih

lemma eraseIdx_append_cons2 {α : Type} (T X : List α) (x y : α) :
    (T ++ x :: y :: X).eraseIdx (T.length + 1) = T ++ x :: X := by
  have := eraseIdx_append_cons (T ++ [x]) X y
  simpa [List.append_assoc] using this

lemma take_append_self {α : Type} (T X : List α) : (T ++ X).take T.length = T := by
  induction T with
  | nil => simp
  | cons a T ih => simpa using ih

lemma drop_append_self {α : Type} (T X : List α) : (T ++ X).drop T.length = X := by
  induction T with
  | nil => simp
  | cons a T ih => simpa using ih

lemma take_append_cons {α : Type} (T X : List α) (x : α) :
    (T ++ x :: X).take (T.length + 1) = T ++ [x] := by
  have := take_append_self (T ++ [x]) X
  simpa [List.append_assoc] using this

lemma drop_append_cons {α : Type} (T X : List α) (x : α) :
    (T ++ x :: X).drop (T.length + 1) = X := by
  have := drop_append_self (T ++ [x]) X
  simpa [List.append_assoc] using this

lemma take_append_of_le {α : Type} (T X : List α) (i : Nat) (h : i ≤ T.length) :
    (T ++ X).take i = T.take i := by
  induction T generalizing i with
  | nil =>
      have : i = 0 := by simpa using h
      simp [this]
  | cons a T ih =>
      cases i with
      | zero => simp
      | succ j => simp [ih j (by simpa using h)]

lemma drop_append_of_le {α : Type} (T X : List α) (i : Nat) (h : i ≤ T.length) :
    (T ++ X).drop i = T.drop i ++ X := by
  induction T generalizing i with
  | nil =>
      have : i = 0 := by simpa using h
      simp [this]
  | cons a T ih =>
      cases i with
      | zero => simp
      | succ j => simp [ih j (by simpa using h)]

lemma exists_decomp {α : Type} (l : List α) (k : Nat) (h : k < l.length) :
    ∃ T x D, l = T ++ x :: D ∧ T.length = k := by
  induction l generalizing k with
  | nil => simp at h
  | cons a l ih =>
      cases k with
      | zero => exact ⟨[], a, l, rfl, rfl⟩
      | succ j =>
          obtain ⟨T, x, D, hl, hT⟩ := ih j (by simpa using h)
          exact ⟨a :: T, x, D, by simp [hl], by simp [hT]⟩

/-! ## The editor state and its document operations -/

/-- The status messages the embedded operations produce (the C code
formats them with `editorSetStatusMessage`; the embedding keeps them
symbolic). -/
inductive StatusMessage where
  | empty
  | bytesWritten (n : Nat)
  | saveError
deriving DecidableEq, Repr

/-- The editor state (struct editorConfig, Spike.c lines 67-81), without
the terminal-only fields (screen size, termios, message timestamp).
`numrows` is embedded as `rows.length`. -/
structure EditorState where
  cx : Nat
  cy : Nat
  rx : Nat
  rowoff : Nat
  coloff : Nat
  rows : List Erow
  dirty : Nat
  statusmsg : StatusMessage
deriving DecidableEq, Repr

/-- Byte-level insertion at position `i`, the effect of the memmove and
store in `editorRowInsertChar` (Spike.c lines 405-407). -/
def listInsertAt (l : List Nat) (i : Nat) (c : Nat) : List Nat :=
  l.take i ++ c :: l.drop i

/-- Byte-level deletion at position `i`, the effect of the memmove in
`editorRowDelChar` (Spike.c line 436). -/
def listRemoveAt (l : List Nat) (i : Nat) : List Nat :=
  l.take i ++ l.drop (i + 1)

/-- editorInsertRow (Spike.c lines 347-374): `at < 0 || at > numrows` is
rejected; otherwise a freshly rendered row is spliced in at `at` and
`dirty` is incremented. -/
def editorInsertRow (st : EditorState) (i : Int) (s : List Nat) : EditorState :=
  if i < 0 ∨ (st.rows.length : Int) < i then st
  else { st with
         rows := st.rows.take i.toNat ++ editorUpdateRow s :: st.rows.drop i.toNat,
         dirty := st.dirty + 1 }

/-- editorDelRow (Spike.c lines 384-394): out-of-range `at` is a no-op;
otherwise the row is removed and `dirty` incremented. -/
def editorDelRow (st : EditorState) (i : Int) : EditorState :=
  if i < 0 ∨ (st.rows.length : Int) ≤ i then st
  else { st with rows := st.rows.eraseIdx i.toNat, dirty := st.dirty + 1 }

/-- editorRowInsertChar (Spike.c lines 397-410): an out-of-range `at`
(negative included) is replaced by `row->size`, the byte is inserted,
the row re-rendered and `dirty` incremented. -/
def editorRowInsertChar (st : EditorState) (r : Nat) (i : Int) (c : Nat) : EditorState :=
  match st.rows[r]? with
  | none => st
  | some row =>
      let j := if i < 0 ∨ (row.chars.length : Int) < i then row.chars.length else i.toNat
      { st with rows := st.rows.set r (editorUpdateRow (listInsertAt row.chars j c)),
                dirty := st.dirty + 1 }

/-- editorRowAppendString (Spike.c lines 413-426). -/
def editorRowAppendString (st : EditorState) (r : Nat) (s : List Nat) : EditorState :=
  match st.rows[r]? with
  | none => st
  | some row =>
      { st with rows := st.rows.set r (editorUpdateRow (row.chars ++ s)),
                dirty := st.dirty + 1 }

/-- editorRowDelChar (Spike.c lines 429-440): out-of-range `at` is a
no-op; otherwise the byte is removed, the row re-rendered and `dirty`
incremented. -/
def editorRowDelChar (st : EditorState) (r : Nat) (i : Int) : EditorState :=
  match st.rows[r]? with
  | none => st
  | some row =>
      if i < 0 ∨ (row.chars.length : Int) ≤ i then st
      else { st with rows := st.rows.set r (editorUpdateRow (listRemoveAt row.chars i.toNat)),
                     dirty := st.dirty + 1 }

/-- editorInsertNewline (Spike.c lines 461-485): at column 0 an empty row
is inserted before the current one; otherwise the suffix from the cursor
becomes a new row below and the current row is truncated to the prefix;
the cursor moves to column 0 of the next row.  (The `none` branch is
unreachable: the editor keeps `cx = 0` whenever `cy = numrows`.) -/
def editorInsertNewline (st : EditorState) : EditorState :=
  if st.cx = 0 then
    let st1 := editorInsertRow st st.cy []
    { st1 with cy := st.cy + 1, cx := 0 }
  else
    match st.rows[st.cy]? with
    | none => st
    | some row =>
        let st1 := editorInsertRow st (st.cy + 1 : Nat) (row.chars.drop st.cx)
        let st2 := { st1 with
                     rows := st1.rows.set st.cy (editorUpdateRow (row.chars.take st.cx)) }
        { st2 with cy := st.cy + 1, cx := 0 }

/-- editorDelChar (Spike.c lines 490-514): no-op at the virtual end row
or at the very start of the document; with `cx > 0` the byte left of the
cursor is deleted; at column 0 the current row is appended onto the
previous row and then deleted, the cursor landing at the junction. -/
def editorDelChar (st : EditorState) : EditorState :=
  if st.cy = st.rows.length then st
  else if st.cx = 0 ∧ st.cy = 0 then st
  else
    match st.rows[st.cy]? with
    | none => st
    | some row =>
        if 0 < st.cx then
          { editorRowDelChar st st.cy ((st.cx : Int) - 1) with cx := st.cx - 1 }
        else
          let prevLen := ((st.rows[st.cy - 1]?).map (fun r => r.chars.length)).getD 0
          let st1 := { st with cx := prevLen }
          let st2 := editorRowAppendString st1 (st.cy - 1) row.chars
          let st3 := editorDelRow st2 (st.cy : Nat)
          { st3 with cy := st.cy - 1 }

@[simp] lemma editorUpdateRow_chars (s : List Nat) : (editorUpdateRow s).chars = s := rfl

@[simp] lemma editorUpdateRow_render (s : List Nat) :
    (editorUpdateRow s).render = renderChars s := rfl

@[simp] lemma editorUpdateRow_hl (s : List Nat) :
    (editorUpdateRow s).hl = editorUpdateSyntax (renderChars s) := rfl

lemma get?_set_self {α : Type} (l : List α) (i : Nat) (v : α) (h : i < l.length) :
    (l.set i v)[i]? = some v := by
  induction l generalizing i with
  | nil => simp at h
  | cons a l ih =>
      cases i with
      | zero => simp
      | succ j => simpa using ih j (by simpa using h)

/-! ## Claim C8: editorRowInsertChar -/

/-- C8 (amended).  `editorRowInsertChar(row, at, c)` succeeds for every
`at`: an in-range `at` inserts the byte at position `at`, while any
out-of-range `at` (negative included) is replaced by `row.size`, so the
byte is appended at the end of the row; render and highlight are
regenerated from the new chars, `dirty` grows by one, and the row count
is unchanged. -/
theorem c8_insert_clamp_theorem :
    ∀ (st : EditorState) (r : Nat) (i : Int) (c : Nat) (row row' : Erow),
      st.rows[r]? = some row →
      (editorRowInsertChar st r i c).rows[r]? = some row' →
      ((0 ≤ i → i ≤ (row.chars.length : Int) → row'.chars = listInsertAt row.chars i.toNat c) ∧
       ((i < 0 ∨ (row.chars.length : Int) < i) → row'.chars = row.chars ++ [c]) ∧
       row'.render = renderChars row'.chars ∧
       row'.hl = editorUpdateSyntax row'.render ∧
       (editorRowInsertChar st r i c).dirty = st.dirty + 1 ∧
       (editorRowInsertChar st r i c).rows.length = st.rows.length) := by
  intro st r i c row row' hrow hrow'
  have hr : r < st.rows.length := lt_length_of_get?_eq_some _ _ _ hrow
  simp only [editorRowInsertChar, hrow] at hrow' ⊢
  rw [get?_set_self _ _ _ (by simpa using hr)] at hrow'
  have heq : editorUpdateRow (listInsertAt row.chars
      (if i < 0 ∨ (row.chars.length : Int) < i then row.chars.length else i.toNat) c) =
        row' := by injection hrow'
  subst heq
  refine ⟨?_, ?_, by simp, by simp, by simp, by simp⟩
  · intro h0 hle
    have : ¬ (i < 0 ∨ (row.chars.length : Int) < i) := by omega
    simp [this]
  · intro h
    rw [if_pos h]
    simp [listInsertAt]

/-- Witness for C8 on a concrete one-row document. -/
theorem c8_insert_clamp_witness :
    ((editorRowInsertChar
        { cx := 0, cy := 0, rx := 0, rowoff := 0, coloff := 0,
          rows := [editorUpdateRow [97, 98]], dirty := 0,
          statusmsg := StatusMessage.empty } 0 1 88).rows[0]?.map
      (fun r => r.chars)) = some [97, 88, 98] := by
  have h := c8_insert_clamp_theorem
    { cx := 0, cy := 0, rx := 0, rowoff := 0, coloff := 0,
      rows := [editorUpdateRow [97, 98]], dirty := 0,
      statusmsg := StatusMessage.empty } 0 1 88
    (editorUpdateRow [97, 98])
    (editorUpdateRow (listInsertAt [97, 98] 1 88)) (by rfl) (by rfl)
  have hchars := h.1 (by decide) (by decide)
  simp only [editorRowInsertChar] at hchars ⊢
  simp [hchars]
  decide

/-- Counterexample for C8 as stated: a negative `at` is not clamped into
`[0, row.size]` (which would make `-1` behave like `0` and prepend the
byte); the code replaces it by `row.size` and appends instead.  On the
row "ab" with `at = -1` and byte 'X', the result is "abX", not "Xab". -/
theorem c8_insert_clamp_counterexample :
    ((editorRowInsertChar
        { cx := 0, cy := 0, rx := 0, rowoff := 0, coloff := 0,
          rows := [editorUpdateRow [97, 98]], dirty := 0,
          statusmsg := StatusMessage.empty } 0 (-1) 88).rows[0]?.map
      (fun r => r.chars)) = some [97, 98, 88] ∧
      ([97, 98, 88] : List Nat) ≠ [88, 97, 98] := by
  constructor
  · rfl
  · decide

/-! ## Claim C3: the highlight overlay always matches the render buffer -/

/-- The highlight overlay regenerated by `editorUpdateSyntax` has exactly
one tag per render byte. -/
lemma editorUpdateSyntax_length (render : List Nat) :
    (editorUpdateSyntax render).length = render.length := by
  simp [editorUpdateSyntax]

/-- C3.  Every operation that mutates a row's chars leaves the mutated
rows with exactly one highlight tag per render byte, because render and
highlight are regenerated together by `editorUpdateRow`: this holds for
the row freshly built by `editorInsertRow`, for the row touched by
`editorRowInsertChar`, `editorRowDelChar` (when the deletion is in
range) and `editorRowAppendString`, and for both rows produced by
`editorInsertNewline`'s split (truncated prefix row and new suffix
row). -/
theorem c3_highlight_length_theorem :
    (∀ s : List Nat, (editorUpdateRow s).render.length = (editorUpdateRow s).hl.length) ∧
    (∀ (st : EditorState) (i : Int) (s : List Nat) (row' : Erow),
        0 ≤ i → i ≤ (st.rows.length : Int) →
        (editorInsertRow st i s).rows[i.toNat]? = some row' →
        row'.render.length = row'.hl.length) ∧
    (∀ (st : EditorState) (r : Nat) (i : Int) (c : Nat) (row' : Erow),
        (editorRowInsertChar st r i c).rows[r]? = some row' →
        row'.render.length = row'.hl.length) ∧
    (∀ (st : EditorState) (r : Nat) (i : Int) (row row' : Erow),
        st.rows[r]? = some row → 0 ≤ i → i < (row.chars.length : Int) →
        (editorRowDelChar st r i).rows[r]? = some row' →
        row'.render.length = row'.hl.length) ∧
    (∀ (st : EditorState) (r : Nat) (s : List Nat) (row' : Erow),
        (editorRowAppendString st r s).rows[r]? = some row' →
        row'.render.length = row'.hl.length) ∧
    (∀ (st : EditorState) (row' row'' : Erow),
        st.cy < st.rows.length → 0 < st.cx →
        ((editorInsertNewline st).rows[st.cy]? = some row' →
            row'.render.length = row'.hl.length) ∧
        ((editorInsertNewline st).rows[st.cy + 1]? = some row'' →
            row''.render.length = row''.hl.length)) := by
  have hup : ∀ s : List Nat,
      (editorUpdateRow s).render.length = (editorUpdateRow s).hl.length := by
    intro s
    simp [editorUpdateSyntax_length]
  refine ⟨hup, ?_, ?_, ?_, ?_, ?_⟩
  · intro st i s row' h0 hle hrow'
    have hcond : ¬ (i < 0 ∨ (st.rows.length : Int) < i) := by omega
    simp only [editorInsertRow, if_neg hcond] at hrow'
    have htn : i.toNat ≤ st.rows.length := by omega
    have hlen : (st.rows.take i.toNat).length = i.toNat := by
      simp [Nat.min_eq_left htn]
    have hget : (st.rows.take i.toNat ++ editorUpdateRow s :: st.rows.drop i.toNat)[i.toNat]? =
        some (editorUpdateRow s) := by
      have h := get?_append_cons (st.rows.take i.toNat) (st.rows.drop i.toNat)
        (editorUpdateRow s)
      rwa [hlen] at h
    rw [hget] at hrow'
    injection hrow' with h
    subst h
    exact hup _
  · intro st r i c row' hrow'
    cases hrow : st.rows[r]? with
    | none =>
        simp only [editorRowInsertChar, hrow] at hrow'
        simp at hrow'
    | some row =>
        have hr : r < st.rows.length := lt_length_of_get?_eq_some _ _ _ hrow
        simp only [editorRowInsertChar, hrow] at hrow'
        rw [get?_set_self _ _ _ (by simpa using hr)] at hrow'
        injection hrow' with h
        subst h
        exact hup _
  · intro st r i row row' hrow h0 hlt hrow'
    have hr : r < st.rows.length := lt_length_of_get?_eq_some _ _ _ hrow
    have hcond : ¬ (i < 0 ∨ (row.chars.length : Int) ≤ i) := by omega
    simp only [editorRowDelChar, hrow, if_neg hcond] at hrow'
    rw [get?_set_self _ _ _ (by simpa using hr)] at hrow'
    injection hrow' with h
    subst h
    exact hup _
  · intro st r s row' hrow'
    cases hrow : st.rows[r]? with
    | none =>
        simp only [editorRowAppendString, hrow] at hrow'
        simp at hrow'
    | some row =>
        have hr : r < st.rows.length := lt_length_of_get?_eq_some _ _ _ hrow
        simp only [editorRowAppendString, hrow] at hrow'
        rw [get?_set_self _ _ _ (by simpa using hr)] at hrow'
        injection hrow' with h
        subst h
        exact hup _
  · intro st row' row'' hcy hcx
    obtain ⟨T, x, D, hd, hT⟩ := exists_decomp st.rows st.cy hcy
    have hrow : st.rows[st.cy]? = some x := by
      rw [hd, ← hT, get?_append_cons]
    have hcond : ¬ (((st.cy + 1 : Nat) : Int) < 0 ∨
        (st.rows.length : Int) < ((st.cy + 1 : Nat) : Int)) := by
      push_cast
      omega
    have hrows1 :
        (editorInsertRow st (st.cy + 1 : Nat) (x.chars.drop st.cx)).rows =
          T ++ x :: editorUpdateRow (x.chars.drop st.cx) :: D := by
      simp only [editorInsertRow, if_neg hcond]
      have htn : ((st.cy + 1 : Nat) : Int).toNat = T.length + 1 := by omega
      rw [htn, hd, take_append_cons, drop_append_cons]
      simp
    constructor
    · intro h
      simp only [editorInsertNewline, if_neg (by omega : ¬ st.cx = 0), hrow, hrows1] at h
      rw [← hT, set_append_cons, get?_append_cons] at h
      injection h with h
      subst h
      exact hup _
    · intro h
      simp only [editorInsertNewline, if_neg (by omega : ¬ st.cx = 0), hrow, hrows1] at h
      rw [← hT, set_append_cons, get?_append_cons2] at h
      injection h with h
      subst h
      exact hup _

/-- Witness for C3: the row-delete conjunct on a concrete document. -/
theorem c3_highlight_length_witness :
    (editorUpdateRow [98]).render.length = (editorUpdateRow [98]).hl.length := by
  exact c3_highlight_length_theorem.2.2.2.1
    { cx := 0, cy := 0, rx := 0, rowoff := 0, coloff := 0,
      rows := [editorUpdateRow [97, 98]], dirty := 0,
      statusmsg := StatusMessage.empty } 0 0
    (editorUpdateRow [97, 98]) (editorUpdateRow [98]) (by rfl) (by decide) (by decide)
    (by rfl)

/-! ## Cursor motion and the Delete key -/

/-- editorMoveCursor (Spike.c lines 1056-1103): the four arrow keys
(1000-1003); after the move, `cx` is clamped to the landing row's size
(0 on the virtual end row). -/
def editorMoveCursor (st : EditorState) (key : Int) : EditorState :=
  let st' :=
    if key = 1000 then
      if st.cx ≠ 0 then { st with cx := st.cx - 1 }
      else if 0 < st.cy then
        { st with
            cy := st.cy - 1
            cx := ((st.rows[st.cy - 1]?).map (fun r => r.chars.length)).getD 0 }
      else st
    else if key = 1001 then
      match st.rows[st.cy]? with
      | some row =>
          if st.cx < row.chars.length then { st with cx := st.cx + 1 }
          else if st.cx = row.chars.length then { st with cy := st.cy + 1, cx := 0 }
          else st
      | none => st
    else if key = 1002 then
      if st.cy ≠ 0 then { st with cy := st.cy - 1 } else st
    else if key = 1003 then
      if st.cy < st.rows.length then { st with cy := st.cy + 1 } else st
    else st
  let rowlen := ((st'.rows[st'.cy]?).map (fun r => r.chars.length)).getD 0
  if rowlen < st'.cx then { st' with cx := rowlen } else st'

/-- The DEL_KEY branch of editorProcessKeypress (Spike.c lines
1147-1152): move the cursor one position Right, then run the
Backspace-style `editorDelChar`. -/
def processDelKey (st : EditorState) : EditorState :=
  editorDelChar (editorMoveCursor st 1001)

/-! ## Operation-level evaluation lemmas -/

/-- `editorRowAppendString` evaluated at the row sitting after a known
front segment. -/
lemma editorRowAppendString_eq (st : EditorState) (T D : List Erow) (x : Erow)
    (s : List Nat) (hd : st.rows = T ++ x :: D) :
    editorRowAppendString st T.length s =
      { st with
          rows := T ++ editorUpdateRow (x.chars ++ s) :: D
          dirty := st.dirty + 1 } := by
  simp only [editorRowAppendString, hd, get?_append_cons, set_append_cons]

/-- `editorDelRow` evaluated at the second row after a known front
segment. -/
lemma editorDelRow_eq2 (st : EditorState) (T D : List Erow) (x y : Erow)
    (hd : st.rows = T ++ x :: y :: D) :
    editorDelRow st ((T.length + 1 : Nat) : Int) =
      { st with rows := T ++ x :: D, dirty := st.dirty + 1 } := by
  have hc : ¬ (((T.length + 1 : Nat) : Int) < 0 ∨
      (((T ++ x :: y :: D).length : Nat) : Int) ≤ ((T.length + 1 : Nat) : Int)) := by
    simp only [List.length_append, List.length_cons]
    push_cast
    omega
  have ht : (((T.length + 1 : Nat) : Int)).toNat = T.length + 1 := by omega
  simp only [editorDelRow, hd, if_neg hc, ht, eraseIdx_append_cons2]

/-- `editorDelChar` on a state sitting at column 0 of the row after a
known front segment, with a previous row available: the merge branch. -/
lemma editorDelChar_merge (st : EditorState) (T D : List Erow) (x y : Erow)
    (hd : st.rows = T ++ x :: y :: D) (hcy : st.cy = T.length + 1)
    (hcx : st.cx = 0) :
    editorDelChar st =
      { st with
          rows := T ++ editorUpdateRow (x.chars ++ y.chars) :: D
          cx := x.chars.length
          cy := T.length
          dirty := st.dirty + 2 } := by
  have hlen : st.rows.length = T.length + D.length + 2 := by
    rw [hd]
    simp
    omega
  have hne : ¬ (st.cy = st.rows.length) := by omega
  have hnz : ¬ (st.cx = 0 ∧ st.cy = 0) := by omega
  have hy : st.rows[st.cy]? = some y := by
    rw [hd, hcy]
    exact get?_append_cons2 T D x y
  have hx : st.rows[st.cy - 1]? = some x := by
    rw [hd, hcy]
    simpa using get?_append_cons T (y :: D) x
  have hlt : ¬ (0 < st.cx) := by omega
  simp only [editorDelChar, if_neg hne, if_neg hnz, hy, if_neg hlt, hx,
    Option.map_some', Option.getD_some]
  have happ := editorRowAppendString_eq { st with cx := x.chars.length } T (y :: D) x
      y.chars (by simpa using hd)
  have hcy1 : st.cy - 1 = T.length := by omega
  rw [hcy1]
  simp only [happ]
  have hdel := editorDelRow_eq2
    { st with
        cx := x.chars.length
        rows := T ++ editorUpdateRow (x.chars ++ y.chars) :: y :: D
        dirty := st.dirty + 1 } T D (editorUpdateRow (x.chars ++ y.chars)) y rfl
  have hcy2 : ((st.cy : Nat) : Int) = ((T.length + 1 : Nat) : Int) := by
    push_cast
    omega
  rw [hcy2]
  simp only [hdel]

/-- `editorDelChar` strictly inside a row: the plain delete-left
branch. -/
lemma editorDelChar_inrow (st : EditorState) (row : Erow)
    (hrow : st.rows[st.cy]? = some row) (hcx : 0 < st.cx)
    (hle : st.cx ≤ row.chars.length) :
    editorDelChar st =
      { st with
          rows := st.rows.set st.cy (editorUpdateRow (listRemoveAt row.chars (st.cx - 1)))
          cx := st.cx - 1
          dirty := st.dirty + 1 } := by
  have hcylt : st.cy < st.rows.length := lt_length_of_get?_eq_some _ _ _ hrow
  have hne : ¬ (st.cy = st.rows.length) := by omega
  have hnz : ¬ (st.cx = 0 ∧ st.cy = 0) := by omega
  simp only [editorDelChar, if_neg hne, if_neg hnz, hrow, if_pos hcx, editorRowDelChar]
  have hc : ¬ (((st.cx : Nat) : Int) - 1 < 0 ∨
      (row.chars.length : Int) ≤ ((st.cx : Nat) : Int) - 1) := by
    omega
  rw [if_neg hc]
  have ht : (((st.cx : Nat) : Int) - 1).toNat = st.cx - 1 := by omega
  rw [ht]

/-- `editorInsertNewline` at column 0: a fresh empty row is inserted
before the current one. -/
lemma editorInsertNewline_cx0 (st : EditorState) (T D : List Erow) (x : Erow)
    (hd : st.rows = T ++ x :: D) (hT : T.length = st.cy) (hcx : st.cx = 0) :
    editorInsertNewline st =
      { st with
          rows := T ++ editorUpdateRow [] :: x :: D
          cy := st.cy + 1
          cx := 0
          dirty := st.dirty + 1 } := by
  have hcond : ¬ (((T.length : Nat) : Int) < 0 ∨
      (((T ++ x :: D).length : Nat) : Int) < ((T.length : Nat) : Int)) := by
    simp only [List.length_append, List.length_cons]
    push_cast
    omega
  have ht : (((T.length : Nat) : Int)).toNat = T.length := by omega
  simp only [editorInsertNewline, if_pos hcx, editorInsertRow, hd, ← hT, if_neg hcond,
    ht, take_append_self, drop_append_self]

/-- `editorInsertNewline` at a positive column on an existing row: the
suffix becomes a fresh row below and the current row is truncated to the
prefix. -/
lemma editorInsertNewline_split (st : EditorState) (T D : List Erow) (x : Erow)
    (hd : st.rows = T ++ x :: D) (hT : T.length = st.cy) (hcx : st.cx ≠ 0) :
    editorInsertNewline st =
      { st with
          rows := T ++ editorUpdateRow (x.chars.take st.cx) ::
            editorUpdateRow (x.chars.drop st.cx) :: D
          cy := st.cy + 1
          cx := 0
          dirty := st.dirty + 1 } := by
  have hcond : ¬ (((T.length + 1 : Nat) : Int) < 0 ∨
      (((T ++ x :: D).length : Nat) : Int) < ((T.length + 1 : Nat) : Int)) := by
    simp only [List.length_append, List.length_cons]
    push_cast
    omega
  have ht : (((T.length + 1 : Nat) : Int)).toNat = T.length + 1 := by omega
  simp only [editorInsertNewline, if_neg hcx, hd, ← hT, get?_append_cons,
    editorInsertRow, if_neg hcond, ht, take_append_cons, drop_append_cons,
    List.append_assoc, List.singleton_append, set_append_cons]

/-! ## Claim C4: insert_newline then delete_char is the identity -/

/-- C4.  For every document and cursor position on an existing row
(`cy < numrows`, `cx ≤ row.size`), `editorInsertNewline` followed by
`editorDelChar` (the cursor then sitting at column 0 of the newly
created next row) restores every row's chars content and the original
row count. -/
theorem c4_split_merge_theorem :
    ∀ (st : EditorState) (row : Erow),
      st.rows[st.cy]? = some row →
      st.cx ≤ row.chars.length →
      (editorDelChar (editorInsertNewline st)).rows.map (fun r => r.chars) =
          st.rows.map (fun r => r.chars) ∧
      (editorDelChar (editorInsertNewline st)).rows.length = st.rows.length := by
  intro st row hrow hcx
  have hcy : st.cy < st.rows.length := lt_length_of_get?_eq_some _ _ _ hrow
  obtain ⟨T, x, D, hd, hT⟩ := exists_decomp st.rows st.cy hcy
  have hx : x = row := by
    have h0 : st.rows[st.cy]? = some x := by
      rw [hd, ← hT]
      exact get?_append_cons T D x
    have := h0.symm.trans hrow
    injection this
  subst hx
  by_cases hcx0 : st.cx = 0
  · have hins := editorInsertNewline_cx0 st T D x hd hT hcx0
    have hmer := editorDelChar_merge
      { st with
          rows := T ++ editorUpdateRow [] :: x :: D
          cy := st.cy + 1
          cx := 0
          dirty := st.dirty + 1 }
      T D (editorUpdateRow []) x rfl (by simpa using hT.symm) rfl
    rw [hins, hmer]
    constructor
    · simp [hd]
    · simp [hd]
  · have hins := editorInsertNewline_split st T D x hd hT hcx0
    have hmer := editorDelChar_merge
      { st with
          rows := T ++ editorUpdateRow (x.chars.take st.cx) ::
            editorUpdateRow (x.chars.drop st.cx) :: D
          cy := st.cy + 1
          cx := 0
          dirty := st.dirty + 1 }
      T D (editorUpdateRow (x.chars.take st.cx)) (editorUpdateRow (x.chars.drop st.cx))
      rfl (by simpa using hT.symm) rfl
    rw [hins, hmer]
    constructor
    · simp [hd, List.take_append_drop]
    · simp [hd]

/-- Witness for C4 on a concrete one-row document with the cursor in the
middle of the row. -/
theorem c4_split_merge_witness :
    (editorDelChar (editorInsertNewline
      { cx := 1, cy := 0, rx := 0, rowoff := 0, coloff := 0,
        rows := [editorUpdateRow [97, 98]], dirty := 0,
        statusmsg := StatusMessage.empty })).rows.map (fun r => r.chars) =
      [[97, 98]] := by
  have h := c4_split_merge_theorem
    { cx := 1, cy := 0, rx := 0, rowoff := 0, coloff := 0,
      rows := [editorUpdateRow [97, 98]], dirty := 0,
      statusmsg := StatusMessage.empty }
    (editorUpdateRow [97, 98]) (by rfl) (by decide)
  rw [h.1]
  rfl

/-! ## Claim C10: the Delete key -/

/-- The rows of a document after the Delete key merges the next row onto
the current one: the current row is replaced by the re-rendered
concatenation and the next row is removed. -/
def delKeyMergedRows (st : EditorState) (row row2 : Erow) : List Erow :=
  (st.rows.set st.cy (editorUpdateRow (row.chars ++ row2.chars))).eraseIdx (st.cy + 1)

/-- C10.  The Delete key is handled as a Right cursor move followed by
the Backspace-style `editorDelChar` (`processDelKey`); hence, strictly
inside a row it removes the byte under the cursor and leaves the cursor
column (and row) unchanged, and at the exact end of a row with a next
row available it appends the next row's content onto the current row and
deletes the next row. -/
theorem c10_delete_key_theorem :
    ∀ (st : EditorState) (row : Erow),
      st.rows[st.cy]? = some row →
      ((st.cx < row.chars.length →
          processDelKey st =
            { st with
                rows := st.rows.set st.cy (editorUpdateRow (listRemoveAt row.chars st.cx))
                dirty := st.dirty + 1 }) ∧
       (st.cx = row.chars.length →
          ∀ row2 : Erow, st.rows[st.cy + 1]? = some row2 →
            processDelKey st =
              { st with
                  rows := delKeyMergedRows st row row2
                  cx := row.chars.length
                  cy := st.cy
                  dirty := st.dirty + 2 })) := by
  intro st row hrow
  constructor
  · intro hlt
    have hmove : editorMoveCursor st 1001 = { st with cx := st.cx + 1 } := by
      have h2 : ¬ (row.chars.length < st.cx + 1) := by omega
      simp [editorMoveCursor, hrow, hlt, h2]
    have hdel := editorDelChar_inrow { st with cx := st.cx + 1 } row
      (by simpa using hrow) (by simp) (by simp; omega)
    simp only [processDelKey, hmove, hdel]
    simp
  · intro heq row2 hrow2
    have hcylt2 : st.cy + 1 < st.rows.length := lt_length_of_get?_eq_some _ _ _ hrow2
    have hmove : editorMoveCursor st 1001 = { st with cy := st.cy + 1, cx := 0 } := by
      have h1 : ¬ (st.cx < row.chars.length) := by omega
      simp [editorMoveCursor, hrow, h1, heq, hrow2]
    obtain ⟨T, x, D, hd, hT⟩ := exists_decomp st.rows st.cy
      (lt_length_of_get?_eq_some _ _ _ hrow)
    have hx : x = row := by
      have h0 : st.rows[st.cy]? = some x := by
        rw [hd, ← hT]
        exact get?_append_cons T D x
      have := h0.symm.trans hrow
      injection this
    subst hx
    cases D with
    | nil =>
        exfalso
        have : st.rows.length = T.length + 1 := by
          rw [hd]
          simp
        omega
    | cons y D =>
        have hy : y = row2 := by
          have h0 : st.rows[st.cy + 1]? = some y := by
            rw [hd, ← hT]
            exact get?_append_cons2 T D x y
          have := h0.symm.trans hrow2
          injection this
        subst hy
        have hmer := editorDelChar_merge { st with cy := st.cy + 1, cx := 0 }
          T D x y (by simpa using hd) (by simpa using hT.symm) rfl
        simp only [processDelKey, hmove, hmer]
        have hrowsfin : T ++ editorUpdateRow (x.chars ++ y.chars) :: D =
            delKeyMergedRows st x y := by
          rw [delKeyMergedRows, hd, ← hT, set_append_cons]
          exact (eraseIdx_append_cons2 T D (editorUpdateRow (x.chars ++ y.chars)) y).symm
        rw [hrowsfin, hT]

/-- Witness for C10: the in-row conjunct on a concrete document. -/
theorem c10_delete_key_witness :
    processDelKey
      { cx := 0, cy := 0, rx := 0, rowoff := 0, coloff := 0,
        rows := [editorUpdateRow [97, 98]], dirty := 0,
        statusmsg := StatusMessage.empty } =
      { cx := 0, cy := 0, rx := 0, rowoff := 0, coloff := 0,
        rows := [editorUpdateRow [98]], dirty := 1,
        statusmsg := StatusMessage.empty } := by
  have h := (c10_delete_key_theorem
    { cx := 0, cy := 0, rx := 0, rowoff := 0, coloff := 0,
      rows := [editorUpdateRow [97, 98]], dirty := 0,
      statusmsg := StatusMessage.empty }
    (editorUpdateRow [97, 98]) (by rfl)).1 (by decide)
  rw [h]
  rfl

/-! ## The incremental search controller (editorFindCallback) -/

/-- Offset of the first occurrence of `needle` in `hay`; the pointer
difference `match - row->render` computed from `strstr` in
editorFindCallback (Spike.c line 703/710). -/
def strstrOff (needle : List Nat) : List Nat → Option Nat
  | [] => if needle.isPrefixOf ([] : List Nat) then some 0 else none
  | c :: t =>
      if needle.isPrefixOf (c :: t) then some 0
      else (strstrOff needle t).map (fun n => n + 1)

/-- The `strstr` substring test of the scan: the query occurs somewhere
in the haystack (`strstr(row->render, query) != NULL`). -/
def containsSub (hay needle : List Nat) : Bool :=
  (strstrOff needle hay).isSome

/-- One step of the search scan (Spike.c lines 686-696): advance by
`direction`, then wrap `-1` to the last row and `numrows` to the first
row. -/
def findStep (numrows : Nat) (direction cur : Int) : Int :=
  let c := cur + direction
  if c = -1 then (numrows : Int) - 1
  else if c = (numrows : Int) then 0
  else c

/-- The scan loop of editorFindCallback (Spike.c lines 685-729),
returning the index of the first row (in scan order) whose render
contains the query; the fuel is the `numrows`-bounded iteration count of
the C `for` loop. -/
def findLoop (rows : List Erow) (query : List Nat) (direction : Int) :
    Int → Nat → Option Nat
  | _, 0 => none
  | cur, fuel + 1 =>
      let c := findStep rows.length direction cur
      match rows[c.toNat]? with
      | none => none
      | some row =>
          if containsSub row.render query then some c.toNat
          else findLoop rows query direction c fuel

/-- The sequence of row indices the scan visits: position `k` is the
`(k+1)`-fold iterate of `findStep` from the starting index. -/
def scanPos (numrows : Nat) (direction cur : Int) : Nat → Int
  | 0 => findStep numrows direction cur
  | k + 1 => findStep numrows direction (scanPos numrows direction cur k)

/-- The static state of editorFindCallback (Spike.c lines 637-650):
`last_match`, `direction`, and the saved highlight segment. -/
structure FindState where
  last_match : Int
  direction : Int
  saved_hl_line : Nat
  saved_hl : Option (List Nat)
deriving DecidableEq, Repr

/-- The memset that paints the match span with HL_MATCH (Spike.c line
726). -/
def hlSpanMatch (hl : List Nat) (off len : Nat) : List Nat :=
  hl.take off ++ List.replicate len HL_MATCH ++ hl.drop (off + len)

/-- The restore memcpy of the saved highlight segment (Spike.c line 656):
`rsize` bytes of `saved` overwrite the front of `hl`. -/
def hlRestore (saved hl : List Nat) (rsize : Nat) : List Nat :=
  saved.take rsize ++ hl.drop rsize

/-- editorFindCallback (Spike.c lines 633-730): restore any saved
highlight segment; Enter/Escape resets the statics and returns; arrow
keys set the direction, any other key resets `last_match` and the
direction; with no last match the scan runs forward; the scan starts at
`last_match + direction` and wraps in both directions; on a match the
statics and cursor are updated, `rowoff` is forced out of range, the
match row's highlight is saved and the match span painted HL_MATCH. -/
def editorFindCallback (st : EditorState) (fs : FindState) (query : List Nat)
    (key : Int) : EditorState × FindState :=
  let st1 :=
    match fs.saved_hl with
    | none => st
    | some saved =>
        match st.rows[fs.saved_hl_line]? with
        | none => st
        | some row =>
            let row' := { row with hl := hlRestore saved row.hl row.render.length }
            { st with rows := st.rows.set fs.saved_hl_line row' }
  let fs1 := { fs with saved_hl := none }
  if key = 13 ∨ key = 27 then
    (st1, { fs1 with last_match := -1, direction := 1 })
  else
    let fs2 :=
      if key = 1001 ∨ key = 1003 then { fs1 with direction := 1 }
      else if key = 1000 ∨ key = 1002 then { fs1 with direction := -1 }
      else { fs1 with last_match := -1, direction := 1 }
    let fs3 := if fs2.last_match = -1 then { fs2 with direction := 1 } else fs2
    match findLoop st1.rows query fs3.direction fs3.last_match st1.rows.length with
    | none => (st1, fs3)
    | some cur =>
        match st1.rows[cur]? with
        | none => (st1, fs3)
        | some row =>
            let off := (strstrOff query row.render).getD 0
            let row' := { row with hl := hlSpanMatch row.hl off query.length }
            ({ st1 with
                cy := cur
                cx := editorRowRxToCx row.chars off
                rowoff := st1.rows.length
                rows := st1.rows.set cur row' },
             { fs3 with
                last_match := (cur : Int)
                saved_hl_line := cur
                saved_hl := some (row.hl.take row.render.length) })

/-- Shifting the scan-start by one `findStep` advances the visited
sequence by one position. -/
lemma scanPos_shift (n : Nat) (d cur : Int) (k : Nat) :
    scanPos n d (findStep n d cur) k = scanPos n d cur (k + 1) := by
  induction k with
  | zero => rfl
  | succ k ih => simp only [scanPos, ih]

/-- Characterization of the scan loop: it returns `some j` exactly when
`j` is the first visited row (within the fuel bound) whose render
contains the query, every earlier visited index resolving to a row
without the query. -/
lemma findLoop_eq_some_iff (rows : List Erow) (q : List Nat) (d : Int) :
    ∀ (fuel : Nat) (cur : Int) (j : Nat),
      findLoop rows q d cur fuel = some j ↔
        ∃ k, k < fuel ∧ j = (scanPos rows.length d cur k).toNat ∧
          (∃ row, rows[(scanPos rows.length d cur k).toNat]? = some row ∧
              containsSub row.render q = true) ∧
          (∀ m, m < k → ∃ row, rows[(scanPos rows.length d cur m).toNat]? = some row ∧
              containsSub row.render q = false) := by
  intro fuel
  induction fuel with
  | zero =>
      intro cur j
      simp [findLoop]
  | succ fuel ih =>
      intro cur j
      have hscan0 : scanPos rows.length d cur 0 = findStep rows.length d cur := rfl
      cases hget : rows[(findStep rows.length d cur).toNat]? with
      | none =>
          simp only [findLoop, hget]
          constructor
          · intro h
            simp at h
          · rintro ⟨k, hk, hj, ⟨row, hrow, htrue⟩, hmin⟩
            cases k with
            | zero =>
                rw [hscan0, hget] at hrow
                cases hrow
            | succ m =>
                obtain ⟨row', hrow', _⟩ := hmin 0 (by omega)
                rw [hscan0, hget] at hrow'
                cases hrow'
      | some row =>
          by_cases hinf : containsSub row.render q = true
          · simp only [findLoop, hget]
            rw [if_pos hinf]
            constructor
            · intro h
              have hj : (findStep rows.length d cur).toNat = j := by injection h
              refine ⟨0, by omega, by rw [hscan0, hj], ⟨row, ?_, hinf⟩, by omega⟩
              rw [hscan0]
              exact hget
            · rintro ⟨k, hk, hj, ⟨row', hrow', htrue⟩, hmin⟩
              cases k with
              | zero =>
                  rw [hscan0] at hj
                  rw [hj]
              | succ m =>
                  obtain ⟨row', hrow', hfalse⟩ := hmin 0 (by omega)
                  rw [hscan0, hget] at hrow'
                  obtain rfl : row = row' := by injection hrow'
                  rw [hfalse] at hinf
                  simp at hinf
          · have hinf' : containsSub row.render q = false := by
              cases hqq : containsSub row.render q
              · rfl
              · exact absurd hqq hinf
            simp only [findLoop, hget]
            rw [if_neg hinf]
            rw [ih (findStep rows.length d cur) j]
            constructor
            · rintro ⟨k, hk, hj, hc, hmin⟩
              rw [scanPos_shift] at hj hc
              refine ⟨k + 1, by omega, hj, hc, ?_⟩
              intro m hm
              cases m with
              | zero =>
                  refine ⟨row, ?_, hinf'⟩
                  rw [hscan0]
                  exact hget
              | succ m' =>
                  have h := hmin m' (by omega)
                  rw [scanPos_shift] at h
                  exact h
            · rintro ⟨k, hk, hj, hc, hmin⟩
              cases k with
              | zero =>
                  obtain ⟨row', hrow', htrue⟩ := hc
                  rw [hscan0, hget] at hrow'
                  obtain rfl : row = row' := by injection hrow'
                  have hcontra := htrue.symm.trans hinf'
                  simp at hcontra
              | succ m =>
                  refine ⟨m, by omega, ?_, ?_, ?_⟩
                  · rw [scanPos_shift]
                    exact hj
                  · rw [scanPos_shift]
                    exact hc
                  · intro m' hm'
                    have h := hmin (m' + 1) (by omega)
                    rw [← scanPos_shift] at h
                    exact h

/-- C5.  Wraparound: in a document of `N ≥ 1` rows whose query occurs
only in row 0's render, a callback step on an arrow-Right key with
`last_match = N - 1` and forward direction wraps modulo `numrows` and
reports the match in row 0 (cursor row and `last_match` both become 0);
and in general the scan starting at `last_match + direction` wraps in
both directions and stops at the first row whose render contains the
query as a substring. -/
theorem c5_search_wrap_theorem :
    (∀ (st : EditorState) (fs : FindState) (query : List Nat) (row0 : Erow),
        st.rows[0]? = some row0 →
        containsSub row0.render query = true →
        (∀ j, j < st.rows.length → 0 < j →
            ((st.rows[j]?).map (fun row => containsSub row.render query)).getD false =
              false) →
        fs.last_match = (st.rows.length : Int) - 1 →
        fs.direction = 1 →
        fs.saved_hl = none →
        (editorFindCallback st fs query 1001).1.cy = 0 ∧
          (editorFindCallback st fs query 1001).2.last_match = 0) ∧
    (∀ (rows : List Erow) (query : List Nat) (d : Int) (fuel : Nat) (cur : Int) (j : Nat),
        findLoop rows query d cur fuel = some j ↔
          ∃ k, k < fuel ∧ j = (scanPos rows.length d cur k).toNat ∧
            (∃ row, rows[(scanPos rows.length d cur k).toNat]? = some row ∧
                containsSub row.render query = true) ∧
            (∀ m, m < k →
                ∃ row, rows[(scanPos rows.length d cur m).toNat]? = some row ∧
                  containsSub row.render query = false)) := by
  constructor
  · intro st fs query row0 h0 hq honly hlm hdir hsav
    have hN : 0 < st.rows.length := lt_length_of_get?_eq_some _ _ _ h0
    have hstep : findStep st.rows.length 1 ((st.rows.length : Int) - 1) = 0 := by
      simp only [findStep]
      have h1 : ((st.rows.length : Int) - 1) + 1 = (st.rows.length : Int) := by ring
      rw [h1, if_neg (by omega), if_pos rfl]
    have hloop1 : ∀ f : Nat, findLoop st.rows query 1 ((st.rows.length : Int) - 1)
        (f + 1) = some 0 := by
      intro f
      simp only [findLoop, hstep, Int.toNat_zero, h0]
      simp [hq]
    have hloop : findLoop st.rows query 1 ((st.rows.length : Int) - 1)
        st.rows.length = some 0 := by
      obtain ⟨m, hm⟩ : ∃ m, st.rows.length = m + 1 := ⟨st.rows.length - 1, by omega⟩
      have h := hloop1 m
      rwa [← hm] at h
    have hne : ¬ ((st.rows.length : Int) - 1 = -1) := by omega
    simp [editorFindCallback, hsav, hlm, hne, hloop, h0]
  · intro rows query d fuel cur j
    exact findLoop_eq_some_iff rows query d fuel cur j

/-- Witness for C5 on a concrete two-row document with the match only in
row 0. -/
theorem c5_search_wrap_witness :
    (editorFindCallback
      { cx := 0, cy := 1, rx := 0, rowoff := 0, coloff := 0,
        rows := [editorUpdateRow [97], editorUpdateRow [98]], dirty := 0,
        statusmsg := StatusMessage.empty }
      { last_match := 1, direction := 1, saved_hl_line := 0, saved_hl := none }
      [97] 1001).1.cy = 0 ∧
    (editorFindCallback
      { cx := 0, cy := 1, rx := 0, rowoff := 0, coloff := 0,
        rows := [editorUpdateRow [97], editorUpdateRow [98]], dirty := 0,
        statusmsg := StatusMessage.empty }
      { last_match := 1, direction := 1, saved_hl_line := 0, saved_hl := none }
      [97] 1001).2.last_match = 0 := by
  exact c5_search_wrap_theorem.1
    { cx := 0, cy := 1, rx := 0, rowoff := 0, coloff := 0,
      rows := [editorUpdateRow [97], editorUpdateRow [98]], dirty := 0,
      statusmsg := StatusMessage.empty }
    { last_match := 1, direction := 1, saved_hl_line := 0, saved_hl := none }
    [97] (editorUpdateRow [97]) (by rfl) (by decide) (by decide) (by decide)
    (by rfl) (by rfl)

/-! ## Saving (editorRowsToString / editorSave) -/

/-- editorRowsToString's buffer (Spike.c lines 530-546): every row's
chars followed by one newline byte, in row order. -/
def rowsToStringBuf : List Erow → List Nat
  | [] => []
  | r :: rest => r.chars ++ 10 :: rowsToStringBuf rest

/-- editorRowsToString's `totlen` (Spike.c lines 521-528): the sum of
every row's size plus one newline byte per row. -/
def rowsToStringLen : List Erow → Nat
  | [] => 0
  | r :: rest => r.chars.length + 1 + rowsToStringLen rest

/-- The computed length is exactly the buffer length. -/
lemma rowsToStringLen_eq (rows : List Erow) :
    rowsToStringLen rows = (rowsToStringBuf rows).length := by
  induction rows with
  | nil => rfl
  | cons r rest ih =>
      simp only [rowsToStringLen, rowsToStringBuf, List.length_append, List.length_cons]
      omega

/-- The outcomes of the file-system calls `editorSave` makes: the
descriptor `open` returns (-1 on failure), and whether `ftruncate` and
`write` would succeed on a valid descriptor. -/
structure SaveIO where
  fd : Int
  truncOk : Bool
  writeOk : Bool
deriving DecidableEq, Repr

/-- editorSave (Spike.c lines 584-627) for a document that already has a
filename.  The success check on line 607 is `fd != 1` (not `fd != -1`),
so the code proceeds unless the descriptor is exactly 1; `ftruncate`
and `write` can succeed only on a valid (non-negative) descriptor.  The
success path resets `dirty` and reports the byte count; every other
path posts the I/O-error message and leaves the document untouched.
The second component is the content written to the file (`some buf`
only on the success path). -/
def editorSave (st : EditorState) (io : SaveIO) : EditorState × Option (List Nat) :=
  let buf := rowsToStringBuf st.rows
  let len := rowsToStringLen st.rows
  if io.fd ≠ 1 then
    if 0 ≤ io.fd ∧ io.truncOk = true then
      if 0 ≤ io.fd ∧ io.writeOk = true then
        ({ st with dirty := 0, statusmsg := StatusMessage.bytesWritten len }, some buf)
      else ({ st with statusmsg := StatusMessage.saveError }, none)
    else ({ st with statusmsg := StatusMessage.saveError }, none)
  else ({ st with statusmsg := StatusMessage.saveError }, none)

/-- C6 (code bug at Spike.c line 607: `fd != 1` instead of `fd != -1`).
On a one-row dirty document: when `open` returns descriptor 1 even
though truncate and write would succeed, the save writes nothing,
reports the I/O-error message and leaves `dirty` at 1 — the claimed
truncate-write-reset behavior does not happen; the same document with
any other valid descriptor writes the serialization "a\n" and resets
`dirty` to 0; and in general the reported length equals the serialized
buffer's length (rows_to_bytes is each row's chars plus one newline). -/
theorem c6_save_fd_bug_theorem :
    ((editorSave
      { cx := 0, cy := 0, rx := 0, rowoff := 0, coloff := 0,
        rows := [editorUpdateRow [97]], dirty := 1,
        statusmsg := StatusMessage.empty } ⟨1, true, true⟩).1.dirty = 1 ∧
     (editorSave
      { cx := 0, cy := 0, rx := 0, rowoff := 0, coloff := 0,
        rows := [editorUpdateRow [97]], dirty := 1,
        statusmsg := StatusMessage.empty } ⟨1, true, true⟩).1.statusmsg =
        StatusMessage.saveError ∧
     (editorSave
      { cx := 0, cy := 0, rx := 0, rowoff := 0, coloff := 0,
        rows := [editorUpdateRow [97]], dirty := 1,
        statusmsg := StatusMessage.empty } ⟨1, true, true⟩).2 = none) ∧
    ((editorSave
      { cx := 0, cy := 0, rx := 0, rowoff := 0, coloff := 0,
        rows := [editorUpdateRow [97]], dirty := 1,
        statusmsg := StatusMessage.empty } ⟨2, true, true⟩).2 = some [97, 10] ∧
     (editorSave
      { cx := 0, cy := 0, rx := 0, rowoff := 0, coloff := 0,
        rows := [editorUpdateRow [97]], dirty := 1,
        statusmsg := StatusMessage.empty } ⟨2, true, true⟩).1.dirty = 0 ∧
     (editorSave
      { cx := 0, cy := 0, rx := 0, rowoff := 0, coloff := 0,
        rows := [editorUpdateRow [97]], dirty := 1,
        statusmsg := StatusMessage.empty } ⟨2, true, true⟩).1.statusmsg =
        StatusMessage.bytesWritten 2) ∧
    (∀ rows : List Erow, rowsToStringLen rows = (rowsToStringBuf rows).length) := by
  refine ⟨by decide, by decide, rowsToStringLen_eq⟩

/-! ## The composed frame's tail (editorRefreshScreen) -/

/-- Decimal digit expansion as snprintf's %d renders a non-negative
value; the fuel argument bounds the recursion. -/
def decBytesCore : Nat → Nat → List Nat → List Nat
  | 0, _, acc => acc
  | fuel + 1, n, acc =>
      if n < 10 then (48 + n) :: acc
      else decBytesCore fuel (n / 10) ((48 + n % 10) :: acc)

/-- The ASCII bytes of a non-negative decimal number. -/
def decBytes (n : Nat) : List Nat := decBytesCore (n + 1) n []

/-- The bytes snprintf produces for the format string at Spike.c line
965.  The format is "x1b[%d;%dH": the backslash of "\x1b" is missing,
so the output literally starts with the bytes 'x','1','b','[' (120, 49,
98, 91) instead of the escape byte 27 followed by '['. -/
def cursorPosBytes (st : EditorState) : List Nat :=
  [120, 49, 98, 91] ++ decBytes (st.cy - st.rowoff + 1) ++ [59] ++
    decBytes (st.rx - st.coloff + 1) ++ [72]

/-- The show-cursor append at Spike.c line 969: `abAppend(&ab,
"\x1b[25h", 6)` copies 6 bytes of a 5-byte literal, so the terminating
NUL is included; the sequence also lacks the '?' of the real
show-cursor escape `ESC [ ? 2 5 h`. -/
def showCursorBytes : List Nat := [27, 91, 50, 53, 104, 0]

/-- The bytes editorRefreshScreen appends after the message bar (Spike.c
lines 964-969): the cursor-position text computed from
`(cy - rowoff + 1, rx - coloff + 1)` followed by the show-cursor append;
the frame is then completed and flushed by a single `write` of the whole
append buffer (line 972). -/
def editorRefreshTail (st : EditorState) : List Nat :=
  cursorPosBytes st ++ showCursorBytes

/-- C7 (code bug at Spike.c line 965).  The frame tail is computed from
`(cy - rowoff, rx - coloff)` as the claim says, but the cursor-position
text begins with the literal byte 'x' (120), not the escape byte 27:
the format string "x1b[%d;%dH" lost the backslash of "\x1b", so no
VT100 cursor-position escape is emitted (and the show-cursor append is
the 6 bytes 27 '[' '2' '5' 'h' NUL rather than ESC [ ? 2 5 h). -/
theorem c7_refresh_tail_theorem :
    editorRefreshTail
      { cx := 0, cy := 0, rx := 0, rowoff := 0, coloff := 0,
        rows := [], dirty := 0, statusmsg := StatusMessage.empty } =
      [120, 49, 98, 91, 49, 59, 49, 72, 27, 91, 50, 53, 104, 0] ∧
    (editorRefreshTail
      { cx := 0, cy := 0, rx := 0, rowoff := 0, coloff := 0,
        rows := [], dirty := 0, statusmsg := StatusMessage.empty })[0]? =
      some 120 ∧
    (120 : Nat) ≠ 27 := by
  refine ⟨by decide, by decide, by decide⟩

/-! ## NUL termination of the row buffers (claim C9) -/

/-- The chars buffer editorInsertRow allocates and fills (Spike.c lines
360-365): `len` text bytes plus an explicitly stored NUL. -/
def charsBufInsertRow (s : List Nat) : List Nat := s ++ [0]

/-- The chars buffer after editorRowInsertChar's memmove and store
(Spike.c lines 405-407): the memmove shifts `size - at + 1` bytes — the
old terminator included — one slot right, then the new byte lands at
`at`. -/
def charsBufInsertChar (buf : List Nat) (size i c : Nat) : List Nat :=
  buf.take i ++ c :: (buf.drop i).take (size - i + 1)

/-- The first `size + 1` bytes of the chars buffer after
editorRowDelChar's memmove (Spike.c line 436): `size - at` bytes from
`at + 1` — the terminator at index `size` included — shift one slot
left.  (The stale byte left beyond the new terminator is outside the
string and not modeled.) -/
def charsBufDelChar (buf : List Nat) (size i : Nat) : List Nat :=
  buf.take i ++ (buf.drop (i + 1)).take (size - i)

/-- The chars buffer after editorRowAppendString (Spike.c lines
417-423): memcpy writes `s` over the old terminator at index `size`,
and a new NUL is stored at `size + len`. -/
def charsBufAppendString (buf : List Nat) (size : Nat) (s : List Nat) : List Nat :=
  buf.take size ++ s ++ [0]

/-- The render buffer editorUpdateRow writes (Spike.c lines 325-339):
the expanded bytes followed by the NUL stored at index `rsize`. -/
def renderBuf (chars : List Nat) : List Nat := renderChars chars ++ [0]

/-- Reading a C string out of a byte buffer: the bytes before the first
NUL, which is what `strstr` scans in editorFindCallback. -/
def cStringOf : List Nat → List Nat
  | [] => []
  | b :: t => if b = 0 then [] else b :: cStringOf t

/-- Tab expansion introduces no NUL byte: it only emits spaces and
copies of the input bytes. -/
lemma renderAux_no_nul (l : List Nat) (idx : Nat) (h : ∀ c ∈ l, c ≠ 0) :
    ∀ c ∈ renderAux l idx, c ≠ 0 := by
  induction l generalizing idx with
  | nil => simp [renderAux]
  | cons a l ih =>
      intro c hc
      simp only [renderAux] at hc
      by_cases ha : a = 9
      · rw [if_pos ha] at hc
        rcases List.mem_append.mp hc with h1 | h2
        · have := List.eq_of_mem_replicate h1
          omega
        · exact ih _ (fun c hc => h c (List.mem_cons_of_mem _ hc)) c h2
      · rw [if_neg ha] at hc
        rcases List.mem_cons.mp hc with h1 | h2
        · subst h1
          exact h c (List.mem_cons_self _ _)
        · exact ih _ (fun c hc => h c (List.mem_cons_of_mem _ hc)) c h2

/-- Reading a NUL-terminated buffer recovers exactly the content when
the content has no NUL byte. -/
lemma cStringOf_append_nul (content : List Nat) (h : ∀ b ∈ content, b ≠ 0) :
    cStringOf (content ++ [0]) = content := by
  induction content with
  | nil => simp [cStringOf]
  | cons a l ih =>
      have ha : a ≠ 0 := h a (List.mem_cons_self _ _)
      simp only [List.cons_append, cStringOf, if_neg ha, List.append_eq]
      rw [ih (fun b hb => h b (List.mem_cons_of_mem _ hb))]

/-- C9.  Every row operation leaves the chars buffer NUL-terminated at
index `size` and the render buffer NUL-terminated at index `rsize`:
the buffer written by each operation is exactly the new content
followed by one NUL byte; and the substring scan's C-string view of
such a buffer is exactly the content (for NUL-free content), which is
what the search callback's `strstr` over `render` relies on. -/
theorem c9_nul_termination_theorem :
    (∀ s : List Nat, charsBufInsertRow s = s ++ [0]) ∧
    (∀ (content : List Nat) (i c : Nat), i ≤ content.length →
        charsBufInsertChar (content ++ [0]) content.length i c =
          listInsertAt content i c ++ [0]) ∧
    (∀ (content : List Nat) (i : Nat), i < content.length →
        charsBufDelChar (content ++ [0]) content.length i =
          listRemoveAt content i ++ [0]) ∧
    (∀ content s : List Nat,
        charsBufAppendString (content ++ [0]) content.length s =
          (content ++ s) ++ [0]) ∧
    (∀ chars : List Nat, renderBuf chars = renderChars chars ++ [0]) ∧
    (∀ content : List Nat, (∀ b ∈ content, b ≠ 0) →
        cStringOf (content ++ [0]) = content) ∧
    (∀ chars : List Nat, (∀ b ∈ chars, b ≠ 0) →
        cStringOf (renderBuf chars) = renderChars chars) := by
  refine ⟨fun s => rfl, ?_, ?_, ?_, fun chars => rfl, cStringOf_append_nul, ?_⟩
  · intro content i c hi
    have htk : (content ++ [0]).take i = content.take i := take_append_of_le _ _ i hi
    have hdr : (content ++ [0]).drop i = content.drop i ++ [0] :=
      drop_append_of_le _ _ i hi
    have hlen : (content.drop i ++ [0]).length = content.length - i + 1 := by
      simp
    have hall : (content.drop i ++ [0]).take (content.length - i + 1) =
        content.drop i ++ [0] := by
      rw [← hlen]
      exact List.take_length _
    simp only [charsBufInsertChar, htk, hdr, hall, listInsertAt]
    simp
  · intro content i hi
    have htk : (content ++ [0]).take i = content.take i :=
      take_append_of_le _ _ i (by omega)
    have hdr : (content ++ [0]).drop (i + 1) = content.drop (i + 1) ++ [0] :=
      drop_append_of_le _ _ (i + 1) (by omega)
    have hlen : (content.drop (i + 1) ++ [0]).length = content.length - i := by
      simp
      omega
    have hall : (content.drop (i + 1) ++ [0]).take (content.length - i) =
        content.drop (i + 1) ++ [0] := by
      rw [← hlen]
      exact List.take_length _
    simp only [charsBufDelChar, htk, hdr, hall, listRemoveAt]
    simp
  · intro content s
    have htk : (content ++ [0]).take content.length = content := by
      rw [take_append_of_le _ _ content.length (by omega)]
      exact List.take_length _
    simp [charsBufAppendString, htk]
  · intro chars h
    exact cStringOf_append_nul (renderChars chars) (renderAux_no_nul chars 0 h)

/-- Witness for C9: the insert-char conjunct on a concrete one-byte row
buffer, plus the C-string view of a concrete render buffer. -/
theorem c9_nul_termination_witness :
    charsBufInsertChar ([97] ++ [0]) 1 0 88 = listInsertAt [97] 0 88 ++ [0] ∧
      cStringOf (renderBuf [97, 9]) = renderChars [97, 9] := by
  exact ⟨c9_nul_termination_theorem.2.1 [97] 0 88 (by decide),
         c9_nul_termination_theorem.2.2.2.2.2.2 [97, 9] (by decide)⟩

end Spike
